import Mathlib

/-!
Shallow embedding of the smfaman core (Go): the CDN provider adapters,
the sync planner, the download executor model, the metadata cache, and
the version resolver, together with theorems about the specification
claims.  Definitions are translated from the Go sources; network and
filesystem effects are passed in explicitly (an environment of fetch
results, an existence probe for the local filesystem, a store map for
the cache directory).
-/

/-- Models Go `strings.HasPrefix s pre` on the underlying characters. -/
def goHasPrefix (s pre : String) : Bool :=
  pre.data.isPrefixOf s.data

/-- Models Go `strings.TrimPrefix s pre`: drops `pre` from the front of `s`
when it is a prefix of `s`, otherwise returns `s` unchanged. -/
def stripLeading (pre s : String) : String :=
  if goHasPrefix s pre then s.drop pre.length else s

/-- The scan of Go `strings.ReplaceAll`: left-to-right, non-overlapping
occurrences of the (nonempty) pattern are replaced; `skip` counts
characters of an already-replaced occurrence still to drop. -/
def replaceScan (pat repl : List Char) : List Char → Nat → List Char
  | [], _ => []
  | _ :: cs, Nat.succ k => replaceScan pat repl cs k
  | c :: cs, 0 =>
    if pat.isPrefixOf (c :: cs) then
      repl ++ replaceScan pat repl cs (pat.length - 1)
    else c :: replaceScan pat repl cs 0

/-- Models Go `strings.ReplaceAll s old new` for a nonempty pattern `old`. -/
def goReplaceAll (s old new : String) : String :=
  String.mk (replaceScan old.data new.data s.data 0)

/-- Models Go `filepath.Join a b` for already-clean path segments
(nonempty, no internal separator, not "." or ".."), on which
`filepath.Clean` is the identity. -/
def joinPath (a b : String) : String :=
  if a = "" then b else a ++ "/" ++ b

/-- `UnpkgFile` from `responses.go`: one entry of the UNPKG `?meta` response. -/
structure UnpkgFile where
  path : String
  size : Int
  type : String
  integrity : String
deriving DecidableEq, Repr

/-- `UnpkgMetaResponse` from `responses.go` (the Go field `Prefix` is named
`pathPfx` here because of a Lean keyword clash). -/
structure UnpkgMetaResponse where
  pkg : String
  version : String
  pathPfx : String
  files : List UnpkgFile
deriving DecidableEq, Repr

/-- `CdnjsVersionResponse` from `responses.go`; the `sri` map is modelled as
an association list. -/
structure CdnjsVersionResponse where
  name : String
  version : String
  rawFiles : List String
  files : List String
  sri : List (String × String)
deriving DecidableEq, Repr

/-- `JsdelivrFile` from `responses.go`: a node of the jsDelivr file tree,
typed "file" or "directory", with nested children. -/
inductive JsdelivrFile where
  | mk (type name hash : String) (size : Int) (files : List JsdelivrFile)

/-- The `Type` field of a jsDelivr tree node. -/
def JsdelivrFile.type : JsdelivrFile → String
  | .mk t _ _ _ _ => t

/-- The `Name` field of a jsDelivr tree node. -/
def JsdelivrFile.name : JsdelivrFile → String
  | .mk _ n _ _ _ => n

/-- The `Hash` field of a jsDelivr tree node. -/
def JsdelivrFile.hash : JsdelivrFile → String
  | .mk _ _ h _ _ => h

/-- The `Size` field of a jsDelivr tree node. -/
def JsdelivrFile.size : JsdelivrFile → Int
  | .mk _ _ _ s _ => s

/-- The `Files` (children) field of a jsDelivr tree node. -/
def JsdelivrFile.files : JsdelivrFile → List JsdelivrFile
  | .mk _ _ _ _ fs => fs

/-- `JsdelivrLinks` from `responses.go`. -/
structure JsdelivrLinks where
  stats : String
  entrypoints : String

/-- `JsdelivrPackageResponse` from `responses.go`. -/
structure JsdelivrPackageResponse where
  type : String
  name : String
  version : String
  default : String
  files : List JsdelivrFile
  links : JsdelivrLinks

/-- `CDNFile` from `cmd/sync.go`: a file available on a CDN. -/
structure CDNFile where
  path : String
  url : String
  size : Int
deriving DecidableEq, Repr

/-- The CDN identifier constants from `frontend_config` (Go type `CDN` is a
string type). -/
def CDNUnpkg : String := "unpkg"

/-- CDNJS identifier constant. -/
def CDNCdnjs : String := "cdnjs"

/-- jsDelivr identifier constant. -/
def CDNJsdelivr : String := "jsdelivr"

/-- `collectJsdelivrFiles` from `cmd/sync.go`: recursively collects files
from the jsDelivr file tree, joining the relative path along the way.
File-typed nodes emit one `CDNFile`; directory-typed nodes with a nonempty
child list are descended into; everything else contributes nothing. -/
def collectJsdelivrFiles (libName version : String) :
    List JsdelivrFile → String → List CDNFile
  | [], _ => []
  | .mk t n _ sz children :: rest, basePath =>
    let path := joinPath basePath n
    (if t = "file" then
      [{ path := path,
         url := "https://cdn.jsdelivr.net/npm/" ++ libName ++ "@" ++ version
                  ++ "/" ++ path,
         size := sz }]
     else if t = "directory" ∧ 0 < children.length then
      collectJsdelivrFiles libName version children path
     else []) ++ collectJsdelivrFiles libName version rest basePath

/-- The number of nodes typed "file" anywhere in a jsDelivr tree. -/
def countFileNodes : List JsdelivrFile → Nat
  | [] => 0
  | .mk t _ _ _ children :: rest =>
    (if t = "file" then 1 else 0) + countFileNodes children + countFileNodes rest

/-- A jsDelivr tree is well formed when only directory-typed nodes carry
children (file nodes are genuine leaves). -/
def jsdelivrWellFormed : List JsdelivrFile → Bool
  | [] => true
  | .mk t _ _ _ children :: rest =>
    (decide (t = "directory") || children.isEmpty)
      && jsdelivrWellFormed children && jsdelivrWellFormed rest

/-- All names in a jsDelivr tree are clean path segments: nonempty, without
a separator, and not "." or "..". -/
def cleanNames : List JsdelivrFile → Bool
  | [] => true
  | .mk _ n _ _ children :: rest =>
    (!n.data.isEmpty && !(n.data.contains '/')
        && decide (n ≠ ".") && decide (n ≠ ".."))
      && cleanNames children && cleanNames rest

/-- The body of the UNPKG case of `fetchFileList` in `cmd/sync.go`: the loop
over `meta.Files` keeping exactly the entries whose `Type` is "file". -/
def unpkgCollect (libName version : String) : List UnpkgFile → List CDNFile
  | [] => []
  | f :: rest =>
    (if f.type = "file" then
      [{ path := stripLeading "/" f.path,
         url := "https://unpkg.com/" ++ libName ++ "@" ++ version ++ f.path,
         size := f.size }]
     else []) ++ unpkgCollect libName version rest

/-- The body of the CDNJS case of `fetchFileList` in `cmd/sync.go`. -/
def cdnjsCollect (libName version : String) : List String → List CDNFile
  | [] => []
  | file :: rest =>
    { path := file,
      url := "https://cdnjs.cloudflare.com/ajax/libs/" ++ libName ++ "/"
               ++ version ++ "/" ++ file,
      size := 0 } :: cdnjsCollect libName version rest

/-- The network environment seen by `fetchFileList`: the result of each
provider metadata fetch (`FetchUnpkgMeta`, `FetchCdnjsVersion`,
`FetchJsdelivrPackage` from `requests.go`), already decoded or failed. -/
structure CDNEnv where
  unpkgMeta : String → String → Except String UnpkgMetaResponse
  cdnjsVersion : String → String → Except String CdnjsVersionResponse
  jsdelivrPackage : String → String → Except String JsdelivrPackageResponse

/-- `fetchFileList` from `cmd/sync.go`: dispatches on the CDN name and
normalizes the provider response into a list of `CDNFile`. -/
def fetchFileList (env : CDNEnv) (libName version cdn : String) :
    Except String (List CDNFile) :=
  if cdn = CDNUnpkg then
    match env.unpkgMeta libName version with
    | .error e => .error e
    | .ok meta => .ok (unpkgCollect libName version meta.files)
  else if cdn = CDNCdnjs then
    match env.cdnjsVersion libName version with
    | .error e => .error e
    | .ok resp => .ok (cdnjsCollect libName version resp.files)
  else if cdn = CDNJsdelivr then
    match env.jsdelivrPackage libName version with
    | .error e => .error e
    | .ok resp => .ok (collectJsdelivrFiles libName version resp.files "")
  else .error ("unsupported CDN: " ++ cdn)

/-- `filterFiles` from `cmd/sync.go`: keep a file when some pattern matches
it exactly or is a prefix of its path (first match wins, each file kept at
most once). -/
def filterFiles : List CDNFile → List String → List CDNFile
  | [], _ => []
  | f :: rest, patterns =>
    (if patterns.any (fun p => f.path == p || goHasPrefix f.path p) then [f]
     else []) ++ filterFiles rest patterns

/-- `LibraryConfig` from `frontend_config` (cfg.go). -/
structure LibraryConfig where
  version : String
  cdn : String
  files : List String
  outputPath : String
deriving DecidableEq, Repr

/-- `FrontendConfig` from `frontend_config` (cfg.go); the Go `Libraries`
map is modelled as an association list whose order is the map iteration
order. -/
structure FrontendConfig where
  destination : String
  projectName : String
  cdn : String
  libraries : List (String × LibraryConfig)
deriving DecidableEq, Repr

/-- `FrontendConfig.GetLibraryCDN`: library-specific CDN wins over the
global setting. -/
def GetLibraryCDN (fc : FrontendConfig) (lc : LibraryConfig) : String :=
  if lc.cdn ≠ "" then lc.cdn else fc.cdn

/-- `FrontendConfig.GetLibraryDestination`: resolve the path template
(the library override wins), substitute the library-name placeholder, and
make it absolute.  `filepath.Abs` is modelled by the ambient resolution
function `abs`. -/
def GetLibraryDestination (abs : String → String) (fc : FrontendConfig)
    (libraryName : String) (lc : LibraryConfig) : Except String String :=
  let pathTemplate := if lc.outputPath ≠ "" then lc.outputPath else fc.destination
  if pathTemplate = "" then
    .error ("no destination path configured for library " ++ libraryName)
  else
    .ok (abs (goReplaceAll pathTemplate "{library_name}" libraryName))

/-- `DownloadTask` from `cmd/sync.go`. -/
structure DownloadTask where
  libraryName : String
  version : String
  cdn : String
  filePath : String
  destPath : String
  url : String
  size : Int
deriving DecidableEq, Repr

/-- The inner loop of `buildDownloadTasks` over the (filtered) file list of
one library: skip a file whose local path exists unless forcing. -/
def buildTasksForFiles (fs : String → Bool) (force : Bool)
    (libName ver cdn destPath : String) : List CDNFile → List DownloadTask
  | [] => []
  | f :: rest =>
    let localPath := joinPath destPath f.path
    (if !force && fs localPath then []
     else
      [{ libraryName := libName, version := ver, cdn := cdn,
         filePath := f.path, destPath := localPath, url := f.url,
         size := f.size }])
      ++ buildTasksForFiles fs force libName ver cdn destPath rest

/-- The CDN resolution at the top of `buildDownloadTasks`'s loop body:
the per-library/global resolution with the hard UNPKG fallback. -/
def effectiveCDN (config : FrontendConfig) (lc : LibraryConfig) : String :=
  let cdn0 := GetLibraryCDN config lc
  if cdn0 = "" then CDNUnpkg else cdn0

/-- The per-library body of `buildDownloadTasks` from `cmd/sync.go`:
resolve the CDN (falling back to UNPKG), resolve the destination, fetch the
file list, filter when file patterns are configured, and build the tasks. -/
def buildTasksForLib (env : CDNEnv) (abs : String → String)
    (fs : String → Bool) (force : Bool) (config : FrontendConfig)
    (libName : String) (lc : LibraryConfig) : Except String (List DownloadTask) :=
  let cdn := effectiveCDN config lc
  match GetLibraryDestination abs config libName lc with
  | .error e => .error ("failed to get destination for " ++ libName ++ ": " ++ e)
  | .ok destPath =>
    match fetchFileList env libName lc.version cdn with
    | .error e => .error ("failed to fetch files for " ++ libName ++ ": " ++ e)
    | .ok files =>
      let files := if lc.files ≠ [] then filterFiles files lc.files else files
      .ok (buildTasksForFiles fs force libName lc.version cdn destPath files)

/-- The loop of `buildDownloadTasks` over the configured libraries, in map
iteration order, aborting on the first error. -/
def buildLoop (env : CDNEnv) (abs : String → String) (fs : String → Bool)
    (force : Bool) (config : FrontendConfig) :
    List (String × LibraryConfig) → Except String (List DownloadTask)
  | [] => .ok []
  | (libName, lc) :: rest =>
    match buildTasksForLib env abs fs force config libName lc with
    | .error e => .error e
    | .ok ts =>
      match buildLoop env abs fs force config rest with
      | .error e => .error e
      | .ok more => .ok (ts ++ more)

/-- `buildDownloadTasks` from `cmd/sync.go`: the sync planner. -/
def buildDownloadTasks (env : CDNEnv) (abs : String → String)
    (fs : String → Bool) (force : Bool) (config : FrontendConfig) :
    Except String (List DownloadTask) :=
  buildLoop env abs fs force config config.libraries

/-- `Entry` from `pkgs/cache` (cache.go): a cached CDN response.  The JSON
payload bytes are modelled by an abstract payload type `π`; timestamps and
durations are integers (nanoseconds), so Go `time.Since(ts) > ttl` is
`now - timestamp > ttl`. -/
structure GoCacheEntry (π : Type) where
  key : String
  data : π
  timestamp : Int
  ttl : Int
deriving DecidableEq, Repr

/-- The bytes stored in one cache file: either bytes that decode as an
`Entry`, or bytes on which `json.Unmarshal` into `Entry` fails. -/
inductive CacheFile (π : Type) where
  | good (entry : GoCacheEntry π)
  | corrupt
deriving DecidableEq, Repr

/-- The metadata cache directory: one optional file per cache key.
`getFilePath` (a SHA-256 hash of the key) is modelled as the identity on
keys; hash collisions are out of scope. -/
def CacheStore (π : Type) := String → Option (CacheFile π)

/-- `Manager` from `pkgs/cache`: the TTL configured at construction and the
enabled flag (directory paths are carried by the store itself). -/
structure CacheManager where
  ttl : Int
  enabled : Bool

/-- `Manager.Get` from `pkgs/cache`: returns `(found, error, decodedValue)`
and the store after the call (an expired entry's file is removed).  A file
that does not decode as an `Entry`, or whose payload does not decode into
the requested result type (`decode` returning `none`), yields
`found = false` together with an error. -/
def CacheManager.Get {π α : Type} (m : CacheManager) (store : CacheStore π)
    (now : Int) (key : String) (decode : π → Option α) :
    (Bool × Option String × Option α) × CacheStore π :=
  if !m.enabled then ((false, none, none), store)
  else
    match store key with
    | none => ((false, none, none), store)
    | some .corrupt =>
      ((false, some "failed to unmarshal cache entry", none), store)
    | some (.good entry) =>
      if entry.ttl < now - entry.timestamp then
        ((false, none, none), fun k => if k = key then none else store k)
      else
        match decode entry.data with
        | none => ((false, some "failed to unmarshal cached data", none), store)
        | some v => ((true, none, some v), store)

/-- `Manager.Set` from `pkgs/cache`: writes an entry stamped with the
current time and the manager's TTL (marshalling is modelled as always
succeeding). -/
def CacheManager.Set {π : Type} (m : CacheManager) (store : CacheStore π)
    (now : Int) (key : String) (data : π) : CacheStore π :=
  if !m.enabled then store
  else fun k =>
    if k = key then
      some (.good { key := key, data := data, timestamp := now, ttl := m.ttl })
    else store k

/-- `GenerateKey` from `pkgs/cache`: `fmt.Sprintf("%v", components)` on a
string slice renders as the bracketed, space-separated list. -/
def GenerateKey (components : List String) : String :=
  "[" ++ String.intercalate " " components ++ "]"

/-- The Go zero value of `UnpkgMetaResponse` (what `FetchUnpkgMeta` would
return if the cache reported a hit without filling the result). -/
def zeroUnpkgMeta : UnpkgMetaResponse :=
  { pkg := "", version := "", pathPfx := "", files := [] }

/-- `FetchUnpkgMeta` from `requests.go`: consult the cache (the `error`
result of `Get` is discarded - only `found` is inspected), fall through to
the live HTTP fetch on a miss, and store a successful live result.  The
HTTP request, status check and JSON decode are abstracted as the `live`
outcome. -/
def FetchUnpkgMeta {π : Type} (m : CacheManager) (store : CacheStore π)
    (now : Int) (decode : π → Option UnpkgMetaResponse)
    (encode : UnpkgMetaResponse → π)
    (live : Except String UnpkgMetaResponse) (libraryName version : String) :
    Except String UnpkgMetaResponse × CacheStore π :=
  let cacheKey := GenerateKey ["unpkg", "meta", libraryName, version]
  match m.Get store now cacheKey decode with
  | ((found, _, vOpt), store₁) =>
    if found then (.ok (vOpt.getD zeroUnpkgMeta), store₁)
    else
      match live with
      | .error e => (.error e, store₁)
      | .ok result => (.ok result, m.Set store₁ now cacheKey (encode result))

/-- The Bubble Tea messages of the sync model in `cmd/sync.go`.  Float
values (progress fractions, wall-clock instants) are modelled as rationals. -/
inductive TeaMsg where
  | key (s : String)
  | downloadStart (task : DownloadTask)
  | downloadProgress (percent : ℚ)
  | downloadComplete (task : DownloadTask)
  | downloadError (e : String)
  | tick (now : ℚ)
  | allComplete

/-- `syncModel` from `cmd/sync.go`. -/
structure SyncModel where
  tasks : List DownloadTask
  currentIndex : Nat
  currentTask : Option DownloadTask
  progress : ℚ
  completed : Nat
  err : Option String
  downloading : Bool
  startTime : ℚ

/-- The commands the sync model returns.  A Go `tea.Cmd` closure captures a
copy of the model; only the captured task list and current index influence
the message it later produces, so those are what the command carries.
`downloadNextAndTick` is `tea.Batch(m.downloadNext(), tick)`. -/
inductive TeaCmd where
  | none
  | quit
  | startDownload (tasks : List DownloadTask) (idx : Nat)
  | downloadNextAndTick (tasks : List DownloadTask) (idx : Nat)
  | tickCmd
  | emitAllComplete

/-- The file-local `min` helper of `cmd/sync.go`. -/
def goMin (a b : ℚ) : ℚ := if a < b then a else b

/-- `newSyncModel` from `cmd/sync.go` (remaining fields take Go zero
values). -/
def newSyncModel (tasks : List DownloadTask) : SyncModel :=
  { tasks := tasks, currentIndex := 0, currentTask := none, progress := 0,
    completed := 0, err := none, downloading := false, startTime := 0 }

/-- `syncModel.Init`: start the first download when there are tasks. -/
def SyncModel.init (m : SyncModel) : TeaCmd :=
  if 0 < m.tasks.length then .startDownload m.tasks m.currentIndex else .none

/-- `syncModel.Update` from `cmd/sync.go`; `now` stands for the
`time.Now()` call in the `downloadStartMsg` branch. -/
def update (now : ℚ) (m : SyncModel) : TeaMsg → SyncModel × TeaCmd
  | .key s => if s = "ctrl+c" then (m, .quit) else (m, .none)
  | .downloadStart task =>
    let m' := { m with currentTask := some task, progress := 0,
                       downloading := true, startTime := now }
    (m', .downloadNextAndTick m'.tasks m'.currentIndex)
  | .tick tnow =>
    if m.downloading ∧ m.currentTask.isSome then
      ({ m with progress := goMin ((tnow - m.startTime) / (1/5 : ℚ)) (99/100 : ℚ) },
       .tickCmd)
    else (m, .none)
  | .downloadProgress p => ({ m with progress := p }, .none)
  | .downloadComplete _ =>
    let m' := { m with downloading := false, progress := 1,
                       completed := m.completed + 1,
                       currentIndex := m.currentIndex + 1 }
    if m'.tasks.length ≤ m'.currentIndex then (m', .emitAllComplete)
    else (m', .startDownload m'.tasks m'.currentIndex)
  | .downloadError e => ({ m with err := some e }, .quit)
  | .allComplete => (m, .quit)

/-- Drives the Bubble Tea event loop of the sync command: executes the
pending command, feeds the produced message back through `update`, and
records every task handed to `downloadFile` (whose outcome is given by
`envD`; `some e` is a transport or status error).  Timer ticks only repaint
the simulated progress, so the driver does not interleave them; `fuel`
bounds the steps. -/
def drive (envD : DownloadTask → Option String) (clock : ℚ) :
    Nat → SyncModel → TeaCmd → List DownloadTask × SyncModel
  | 0, m, _ => ([], m)
  | _ + 1, m, .none => ([], m)
  | _ + 1, m, .quit => ([], m)
  | _ + 1, m, .tickCmd => ([], m)
  | fuel + 1, m, .startDownload ts idx =>
    match ts[idx]? with
    | Option.none =>
      let (m', c') := update clock m .allComplete
      drive envD clock fuel m' c'
    | some task =>
      let (m', c') := update clock m (.downloadStart task)
      drive envD clock fuel m' c'
  | fuel + 1, m, .downloadNextAndTick ts idx =>
    match ts[idx]? with
    | Option.none =>
      let (m', c') := update clock m .allComplete
      drive envD clock fuel m' c'
    | some task =>
      match envD task with
      | some e =>
        let (m', c') :=
          update clock m
            (.downloadError ("failed to download " ++ task.filePath ++ ": " ++ e))
        let (atts, mf) := drive envD clock fuel m' c'
        (task :: atts, mf)
      | Option.none =>
        let (m', c') := update clock m (.downloadComplete task)
        let (atts, mf) := drive envD clock fuel m' c'
        (task :: atts, mf)
  | fuel + 1, m, .emitAllComplete =>
    let (m', c') := update clock m .allComplete
    drive envD clock fuel m' c'

/-- Run the whole download executor on a task batch, as
`runInteractiveDownload` does: initialize the model and drive the loop to
completion. -/
def runSyncExecutor (envD : DownloadTask → Option String) (clock : ℚ)
    (tasks : List DownloadTask) : List DownloadTask × SyncModel :=
  let m := newSyncModel tasks
  drive envD clock (2 * tasks.length + 4) m m.init

/-- The character class `[0-9A-Za-z-~]` of go-version prerelease and
metadata identifiers. -/
def isPreChar (c : Char) : Bool :=
  c.isDigit || c.isAlpha || c = '-' || c = '~'

/-- The core-segment scanner of go-version's `NewVersion`: consumes the
maximal `digits(.digits)*` run (a dot is consumed only when a digit
follows), accumulating the numeric segments; `cur` holds the segment being
read. -/
def coreLoop : List Char → Nat → List Nat → List Nat × List Char
  | [], cur, acc => (acc ++ [cur], [])
  | '.' :: d :: cs, cur, acc =>
    if d.isDigit then coreLoop cs (d.toNat - 48) (acc ++ [cur])
    else (acc ++ [cur], '.' :: d :: cs)
  | ['.'], cur, acc => (acc ++ [cur], ['.'])
  | c :: cs, cur, acc =>
    if c.isDigit then coreLoop cs (cur * 10 + (c.toNat - 48)) acc
    else (acc ++ [cur], c :: cs)

/-- Models Go `strings.Split` on a single-character separator, at the
character level. -/
def splitParts (sep : Char) : List Char → List (List Char)
  | [] => [[]]
  | c :: cs =>
    let ps := splitParts sep cs
    if c = sep then [] :: ps
    else
      match ps with
      | p :: rest => (c :: p) :: rest
      | [] => [[c]]

/-- Dot-separated identifier run over `isPreChar`, nonempty with nonempty
parts: the shape shared by go-version prerelease and metadata sections. -/
def preBodyOk (cs : List Char) : Bool :=
  !cs.isEmpty
    && (splitParts '.' cs).all (fun p => !p.isEmpty && p.all isPreChar)

/-- The prerelease section of go-version's regular expression, applied to
what remains after the numeric core: empty, or `-` followed by a
digit-first identifier run, or an optionally-`-`-prefixed run whose first
character is a letter, `-` or `~`. -/
def preParse : List Char → Option String
  | [] => some ""
  | '-' :: r =>
    match r with
    | [] => none
    | c :: _ =>
      if c.isDigit then (if preBodyOk r then some (String.mk r) else none)
      else if c.isAlpha || c = '-' || c = '~' then
        (if preBodyOk r then some (String.mk r) else none)
      else none
  | c :: cs =>
    if c.isAlpha || c = '~' then
      (if preBodyOk (c :: cs) then some (String.mk (c :: cs)) else none)
    else none

/-- go-version's `NewVersion` on a raw string: optional leading `v`, a
nonempty digit-first core, an optional prerelease, optional `+metadata`;
each segment must fit in an `int64`; segments are padded with zeros to at
least three.  Returns `(segments, prerelease, metadata)`. -/
def parseVersionAux (s : String) : Option (List Nat × String × String) :=
  let cs0 := s.toList
  let cs1 := match cs0 with
    | 'v' :: rest => rest
    | _ => cs0
  let body := cs1.takeWhile (· ≠ '+')
  let metaPart := cs1.dropWhile (· ≠ '+')
  let metaFine := match metaPart with
    | [] => true
    | _ :: mrest => preBodyOk mrest
  if !metaFine then none
  else
    match body with
    | [] => none
    | c :: rest =>
      if c.isDigit then
        let (segs, rem) := coreLoop rest (c.toNat - 48) []
        if segs.all (· < 2 ^ 63) then
          match preParse rem with
          | some pre =>
            let metaStr := match metaPart with
              | [] => ""
              | _ :: mrest => String.mk mrest
            some (segs ++ List.replicate (3 - segs.length) 0, pre, metaStr)
          | none => none
        else none
      else none

/-- go-version's `Version` value: padded numeric segments, prerelease,
metadata, and the original input string. -/
structure GoVersion where
  segments : List Nat
  pre : String
  metadata : String
  original : String
deriving DecidableEq, Repr

/-- `version.NewVersion`: parse a raw string, keeping the original. -/
def parseVersion (s : String) : Option GoVersion :=
  match parseVersionAux s with
  | some (segs, pre, meta) => some ⟨segs, pre, meta, s⟩
  | none => none

/-- Go `strconv.ParseInt(s, 10, 64)`: optional sign, nonempty digits,
result within the signed 64-bit range. -/
def goParseInt64 (s : String) : Option Int :=
  let cs := s.toList
  let (neg, ds) := match cs with
    | '-' :: rest => (true, rest)
    | '+' :: rest => (false, rest)
    | _ => (false, cs)
  if ds.isEmpty || !ds.all (·.isDigit) then none
  else
    let n : Nat := ds.foldl (fun acc c => acc * 10 + (c.toNat - 48)) 0
    let v : Int := if neg then -(n : Int) else (n : Int)
    if v < -(2 ^ 63) ∨ (2 ^ 63 : Int) - 1 < v then none else some v

/-- go-version's `comparePart` on one prerelease identifier pair: an empty
(padding) identifier is decided by whether the other side is numeric;
otherwise numeric identifiers sort below alphanumeric ones, numeric pairs
compare as integers, alphanumeric pairs compare bytewise; unequal strings
whose integer values coincide fall through to "less". -/
def comparePart (a b : String) : Ordering :=
  if a = b then .eq
  else
    let aNum := goParseInt64 a
    let bNum := goParseInt64 b
    if a = "" then (if bNum.isSome then .lt else .gt)
    else if b = "" then (if aNum.isSome then .gt else .lt)
    else
      match aNum, bNum with
      | some _, none => .lt
      | none, some _ => .gt
      | none, none => if b < a then .gt else .lt
      | some x, some y => if y < x then .gt else .lt

/-- The loop of go-version's `comparePrereleases`: identifier lists are
compared pointwise, the shorter side padded with empty identifiers. -/
def comparePartsLoop : List String → List String → Ordering
  | [], [] => .eq
  | [], b :: bs =>
    match comparePart "" b with
    | .eq => comparePartsLoop [] bs
    | o => o
  | a :: rest, [] =>
    match comparePart a "" with
    | .eq => comparePartsLoop rest []
    | o => o
  | a :: rest, b :: bs =>
    match comparePart a b with
    | .eq => comparePartsLoop rest bs
    | o => o

/-- go-version's `comparePrereleases`. -/
def comparePrereleases (p q : String) : Ordering :=
  if p = q then .eq
  else
    comparePartsLoop ((splitParts '.' p.data).map String.mk)
      ((splitParts '.' q.data).map String.mk)

/-- go-version's `allZero` helper. -/
def allZero (l : List Nat) : Bool := l.all (· = 0)

/-- The segment-comparison loop of go-version's `Compare`: pointwise on the
padded segments, a lopsided tail counting as equal when all zeros. -/
def compareSegsLoop : List Nat → List Nat → Ordering
  | [], [] => .eq
  | [], r => if allZero r then .eq else .lt
  | l, [] => if allZero l then .eq else .gt
  | a :: l, b :: r =>
    if a = b then compareSegsLoop l r
    else if a < b then .lt
    else .gt

/-- go-version's `Version.Compare`: equal segment lists compare on
prerelease (absence of a prerelease sorts above presence); otherwise the
segment loop decides. -/
def goCompare (v w : GoVersion) : Ordering :=
  if v.segments = w.segments then
    if v.pre = "" ∧ w.pre = "" then .eq
    else if v.pre = "" then .gt
    else if w.pre = "" then .lt
    else comparePrereleases v.pre w.pre
  else compareSegsLoop v.segments w.segments

/-- `a` may precede `b` in the descending order produced by
`sort.Sort(sort.Reverse(version.Collection(...)))`. -/
def versionLe (a b : GoVersion) : Bool := !(goCompare a b == .lt)

/-- Insertion step of the descending comparison sort. -/
def insertDesc (x : GoVersion) : List GoVersion → List GoVersion
  | [] => [x]
  | y :: ys => if versionLe x y then x :: y :: ys else y :: insertDesc x ys

/-- Models `sort.Sort(sort.Reverse(version.Collection(...)))`: a
deterministic descending comparison sort (stable; the Go sort is unstable,
so on comparison-equal elements only, tie order may differ). -/
def sortDescVersions : List GoVersion → List GoVersion
  | [] => []
  | x :: xs => insertDesc x (sortDescVersions xs)

/-- `SortVersions` from `requests.go`: parse (silently dropping failures),
sort descending, and return the original strings. -/
def SortVersions (versions : List String) : List String :=
  let parsed := versions.filterMap parseVersion
  (sortDescVersions parsed).map (·.original)

theorem unpkgCollect_eq_filter_map (libName version : String)
    (fs : List UnpkgFile) :
    unpkgCollect libName version fs
      = (fs.filter (fun f => f.type == "file")).map
          (fun f =>
            { path := stripLeading "/" f.path,
              url := "https://unpkg.com/" ++ libName ++ "@" ++ version ++ f.path,
              size := f.size }) := by
  induction fs with
  | nil => rfl
  | cons f rest ih =>
    simp only [unpkgCollect, List.filter_cons]
    by_cases h : f.type = "file"
    · simp [h, ih]
    · simp [h, ih]

/-- C10: `GenerateKey` renders its components with Go's default slice
formatting (one bracketed, space-separated string), so it is not injective:
`GenerateKey("a b")` and `GenerateKey("a", "b")` both yield `"[a b]"`, and
distinct (provider, operation, library, version) tuples can collide on one
cache key. -/
theorem generateKey_not_injective :
    GenerateKey ["a b"] = GenerateKey ["a", "b"]
      ∧ GenerateKey ["a b"] = "[a b]"
      ∧ ["a b"] ≠ ["a", "b"]
      ∧ GenerateKey ["unpkg", "meta", "lib", "1 2"]
          = GenerateKey ["unpkg", "meta", "lib 1", "2"]
      ∧ ("lib", "1 2") ≠ ("lib 1", "2") := by
  refine ⟨by decide, by decide, by decide, by decide, by decide⟩

/-- C1: for every Variant-A (UNPKG) metadata response, `fetchFileList`
returns exactly the response entries whose overloaded `type` field equals
the literal string "file" (each kept path stripped of a leading "/");
entries whose `type` holds any other string, such as a MIME type, are
excluded. -/
theorem unpkg_fetch_keeps_exactly_type_file (libName version : String)
    (meta : UnpkgMetaResponse) (env : CDNEnv) :
    unpkgCollect libName version meta.files
        = (meta.files.filter (fun f => f.type == "file")).map
            (fun f =>
              { path := stripLeading "/" f.path,
                url := "https://unpkg.com/" ++ libName ++ "@" ++ version
                         ++ f.path,
                size := f.size })
      ∧ (∀ c, c ∈ unpkgCollect libName version meta.files ↔
            ∃ f, f ∈ meta.files ∧ f.type = "file"
              ∧ c = { path := stripLeading "/" f.path,
                      url := "https://unpkg.com/" ++ libName ++ "@" ++ version
                               ++ f.path,
                      size := f.size })
      ∧ fetchFileList env libName version CDNUnpkg
          = (env.unpkgMeta libName version).map
              (fun r => unpkgCollect libName version r.files) := by
  refine ⟨unpkgCollect_eq_filter_map libName version meta.files, ?_, ?_⟩
  · intro c
    rw [unpkgCollect_eq_filter_map]
    simp only [List.mem_map, List.mem_filter, beq_iff_eq]
    constructor
    · rintro ⟨f, ⟨hf, ht⟩, rfl⟩
      exact ⟨f, hf, ht, rfl⟩
    · rintro ⟨f, hf, ht, rfl⟩
      exact ⟨f, ⟨hf, ht⟩, rfl⟩
  · show fetchFileList env libName version CDNUnpkg = _
    unfold fetchFileList
    rw [if_pos rfl]
    cases h : env.unpkgMeta libName version <;> simp [Except.map, h]

theorem filterFiles_eq_filter (files : List CDNFile) (patterns : List String) :
    filterFiles files patterns
      = files.filter
          (fun f => patterns.any (fun p => f.path == p || goHasPrefix f.path p)) := by
  induction files with
  | nil => rfl
  | cons f rest ih =>
    simp only [filterFiles, List.filter_cons]
    by_cases h :
        (patterns.any (fun p => f.path == p || goHasPrefix f.path p)) = true
    · simp [h, ih]
    · simp [h, ih]

/-- C9: for every file list and non-empty pattern list, the planner's
filter keeps a file iff some pattern equals its path exactly or is a
prefix of its path; with pattern "dist/" and entries dist/a.js, dist/b.js,
src/c.js exactly the two dist entries remain. -/
theorem filterFiles_keeps_exact_or_leading (files : List CDNFile)
    (patterns : List String) (hne : patterns ≠ []) :
    filterFiles files patterns
        = files.filter
            (fun f => patterns.any (fun p => f.path == p || goHasPrefix f.path p))
      ∧ (∀ c, c ∈ filterFiles files patterns ↔
            c ∈ files ∧ ∃ p ∈ patterns, c.path = p ∨ goHasPrefix c.path p = true)
      ∧ filterFiles
          [{ path := "dist/a.js", url := "ua", size := 1 },
           { path := "dist/b.js", url := "ub", size := 2 },
           { path := "src/c.js", url := "uc", size := 3 }]
          ["dist/"]
          = [{ path := "dist/a.js", url := "ua", size := 1 },
             { path := "dist/b.js", url := "ub", size := 2 }] := by
  refine ⟨filterFiles_eq_filter files patterns, ?_, by decide⟩
  intro c
  rw [filterFiles_eq_filter]
  simp [List.mem_filter, List.any_eq_true, beq_iff_eq]

/-- Witness for C9 at a concrete input. -/
theorem filterFiles_keeps_exact_or_leading_witness :
    (["dist/"] : List String) ≠ []
      ∧ filterFiles
          [{ path := "dist/a.js", url := "ua", size := 1 },
           { path := "dist/b.js", url := "ub", size := 2 },
           { path := "src/c.js", url := "uc", size := 3 }]
          ["dist/"]
          = [{ path := "dist/a.js", url := "ua", size := 1 },
             { path := "dist/b.js", url := "ub", size := 2 }] :=
  ⟨by decide,
   (filterFiles_keeps_exact_or_leading
      [{ path := "dist/a.js", url := "ua", size := 1 },
       { path := "dist/b.js", url := "ub", size := 2 },
       { path := "src/c.js", url := "uc", size := 3 }]
      ["dist/"] (by decide)).2.2⟩

/-- Structural induction principle for jsDelivr trees (lists of nodes, with
the motive descending into children). -/
theorem jsdelivrTree_ind (motive : List JsdelivrFile → Prop)
    (hnil : motive [])
    (hcons : ∀ t n h sz children rest, motive children → motive rest →
        motive (.mk t n h sz children :: rest)) :
    ∀ fs, motive fs
  | [] => hnil
  | .mk t n h sz children :: rest =>
    hcons t n h sz children rest
      (jsdelivrTree_ind motive hnil hcons children)
      (jsdelivrTree_ind motive hnil hcons rest)

/-- The string begins with the path separator. -/
def startsWithSlash (s : String) : Bool := s.data.head? == some '/'

theorem startsWithSlash_joinPath (a n : String) (ha : startsWithSlash a = false)
    (hne : n.data ≠ []) (hnc : n.data.contains '/' = false) :
    startsWithSlash (joinPath a n) = false := by
  unfold joinPath
  by_cases h : a = ""
  · subst h
    rw [if_pos rfl]
    cases hd : n.data with
    | nil => exact absurd hd hne
    | cons c cs =>
      have : c ≠ '/' := by
        intro hc
        rw [hd, hc] at hnc
        simp [List.contains_cons] at hnc
      simp [startsWithSlash, hd, this]
  · rw [if_neg h]
    have hadata : a.data ≠ [] := by
      intro hh
      exact h (by cases a with | mk d => simp_all)
    cases hd : a.data with
    | nil => exact absurd hd hadata
    | cons c cs =>
      have hc : c ≠ '/' := by
        intro hcc
        rw [startsWithSlash, hd, hcc] at ha
        simp at ha
      simp [startsWithSlash, String.data_append, hd, hc]

theorem collect_length (libName version : String) (fs : List JsdelivrFile) :
    ∀ basePath, jsdelivrWellFormed fs = true →
      (collectJsdelivrFiles libName version fs basePath).length
        = countFileNodes fs := by
  induction fs using jsdelivrTree_ind with
  | hnil => intro _ _; simp [collectJsdelivrFiles, countFileNodes]
  | hcons t n h sz children rest ihc ihr =>
    intro basePath hwf
    simp only [jsdelivrWellFormed, Bool.and_eq_true, Bool.or_eq_true,
      decide_eq_true_eq, List.isEmpty_iff] at hwf
    obtain ⟨⟨hdir, hwfc⟩, hwfr⟩ := hwf
    by_cases hf : t = "file"
    · have hch : children = [] := by
        rcases hdir with hd | he
        · rw [hf] at hd; exact absurd hd (by decide)
        · exact he
      subst hch
      subst hf
      simp [collectJsdelivrFiles, countFileNodes, ihr basePath hwfr]
      omega
    · by_cases hd : t = "directory"
      · subst hd
        by_cases hlen : 0 < children.length
        · simp [collectJsdelivrFiles, countFileNodes, hlen,
            ihc _ hwfc, ihr basePath hwfr]
        · have hch : children = [] := by
            cases children with
            | nil => rfl
            | cons x xs => simp at hlen
          subst hch
          simp [collectJsdelivrFiles, countFileNodes, ihr basePath hwfr]
      · have hch : children = [] := by
          rcases hdir with hdd | he
          · exact absurd hdd hd
          · exact he
        subst hch
        simp [collectJsdelivrFiles, countFileNodes, hf, hd, ihr basePath hwfr]

theorem collect_no_leading_slash (libName version : String)
    (fs : List JsdelivrFile) :
    ∀ basePath, cleanNames fs = true → startsWithSlash basePath = false →
      ∀ c ∈ collectJsdelivrFiles libName version fs basePath,
        startsWithSlash c.path = false := by
  induction fs using jsdelivrTree_ind with
  | hnil => intro _ _ _ c hc; simp [collectJsdelivrFiles] at hc
  | hcons t n h sz children rest ihc ihr =>
    intro basePath hcn hbp c hc
    simp only [cleanNames, Bool.and_eq_true] at hcn
    obtain ⟨⟨⟨⟨⟨hA, hB⟩, _⟩, _⟩, hcnc⟩, hcnr⟩ := hcn
    have hjoin : startsWithSlash (joinPath basePath n) = false :=
      startsWithSlash_joinPath basePath n hbp
        (by simpa using hA) (by simpa using hB)
    simp only [collectJsdelivrFiles, List.mem_append] at hc
    rcases hc with hc | hc
    · by_cases hf : t = "file"
      · rw [if_pos hf] at hc
        simp only [List.mem_singleton] at hc
        subst hc
        exact hjoin
      · rw [if_neg hf] at hc
        by_cases hd : t = "directory" ∧ 0 < children.length
        · rw [if_pos hd] at hc
          exact ihc _ hcnc hjoin c hc
        · rw [if_neg hd] at hc
          simp at hc
    · exact ihr basePath hcnr hbp c hc

/-- C2: for every Variant-C (jsDelivr) well-formed file tree,
`collectJsdelivrFiles` emits exactly one `CDNFile` per node typed "file" at
any depth, every emitted path omits a leading separator, a directory node
with an empty child list contributes nothing, and the tree
[dist directory containing x.min.js of size 1000] for jquery 3.7.1
normalizes to exactly one entry with path "dist/x.min.js", size 1000 and
the URL built from library, version and path. -/
theorem jsdelivr_flatten_spec (libName version : String)
    (fs : List JsdelivrFile)
    (hwf : jsdelivrWellFormed fs = true) (hcn : cleanNames fs = true) :
    (collectJsdelivrFiles libName version fs "").length = countFileNodes fs
      ∧ (∀ c ∈ collectJsdelivrFiles libName version fs "",
           startsWithSlash c.path = false)
      ∧ (∀ lib ver n h sz,
           collectJsdelivrFiles lib ver [.mk "directory" n h sz []] "" = [])
      ∧ collectJsdelivrFiles "jquery" "3.7.1"
          [.mk "directory" "dist" "" 0 [.mk "file" "x.min.js" "" 1000 []]] ""
          = [{ path := "dist/x.min.js",
               url := "https://cdn.jsdelivr.net/npm/jquery@3.7.1/dist/x.min.js",
               size := 1000 }] := by
  refine ⟨collect_length libName version fs "" hwf,
    collect_no_leading_slash libName version fs "" hcn (by rfl), ?_, ?_⟩
  · intro lib ver n h sz
    simp [collectJsdelivrFiles]
  · simp [collectJsdelivrFiles, joinPath]

/-- Witness for C2 at the concrete tree of the claim. -/
theorem jsdelivr_flatten_spec_witness :
    jsdelivrWellFormed
        [.mk "directory" "dist" "" 0 [.mk "file" "x.min.js" "" 1000 []]] = true
      ∧ cleanNames
          [.mk "directory" "dist" "" 0 [.mk "file" "x.min.js" "" 1000 []]] = true
      ∧ (collectJsdelivrFiles "jquery" "3.7.1"
          [.mk "directory" "dist" "" 0 [.mk "file" "x.min.js" "" 1000 []]] "").length
          = countFileNodes
              [.mk "directory" "dist" "" 0 [.mk "file" "x.min.js" "" 1000 []]] :=
  ⟨by simp [jsdelivrWellFormed], by simp [cleanNames],
   (jsdelivr_flatten_spec "jquery" "3.7.1"
      [.mk "directory" "dist" "" 0 [.mk "file" "x.min.js" "" 1000 []]]
      (by simp [jsdelivrWellFormed]) (by simp [cleanNames])).1⟩

/-- C3: a metadata cache entry written at time `T` with time-to-live `D`
is a hit at time `t` iff `t - T ≤ D`; a read past expiry deletes the file
and reports a miss; in particular the entry is present at `T + D/2` and
absent at `T + 2D`. -/
theorem cache_get_ttl_boundary {π α : Type} (m : CacheManager)
    (store : CacheStore π) (key : String) (p : π) (decode : π → Option α)
    (v : α) (T D : Int)
    (hen : m.enabled = true)
    (hst : store key
        = some (.good { key := key, data := p, timestamp := T, ttl := D }))
    (hdec : decode p = some v) (hD : 0 < D) :
    (∀ t : Int, ((m.Get store t key decode).1.1 = true ↔ t - T ≤ D))
      ∧ (∀ t : Int, D < t - T →
           (m.Get store t key decode).1.1 = false
             ∧ (m.Get store t key decode).2 key = none)
      ∧ (m.Get store (T + D / 2) key decode).1.1 = true
      ∧ (m.Get store (T + 2 * D) key decode).1.1 = false := by
  have hGet : ∀ t : Int, m.Get store t key decode
      = if D < t - T then
          ((false, none, none), fun k => if k = key then none else store k)
        else ((true, none, some v), store) := by
    intro t
    by_cases hexp : D < t - T
    · simp [CacheManager.Get, hen, hst, hdec, hexp]
    · simp [CacheManager.Get, hen, hst, hdec, hexp]
  refine ⟨?_, ?_, ?_, ?_⟩
  · intro t
    by_cases hexp : D < t - T
    · rw [hGet t, if_pos hexp]; simp; omega
    · rw [hGet t, if_neg hexp]; simp; omega
  · intro t hlt
    rw [hGet t, if_pos hlt]
    simp
  · have hle : ¬ D < (T + D / 2) - T := by omega
    rw [hGet, if_neg hle]
  · have hgt : D < (T + 2 * D) - T := by omega
    rw [hGet, if_pos hgt]

/-- Concrete store for the C3 witness. -/
def storeC3 : CacheStore Nat := fun k =>
  if k = "k" then
    some (.good { key := "k", data := 7, timestamp := 0, ttl := 10 })
  else none

/-- Witness for C3 at a concrete entry (T = 0, D = 10). -/
theorem cache_get_ttl_boundary_witness :
    ((⟨86400, true⟩ : CacheManager).Get storeC3 (0 + 10 / 2) "k" some).1.1 = true
      ∧ ((⟨86400, true⟩ : CacheManager).Get storeC3 (0 + 2 * 10) "k" some).1.1
          = false :=
  ⟨(cache_get_ttl_boundary ⟨86400, true⟩ storeC3 "k" 7 some 7 0 10 rfl rfl rfl
      (by decide)).2.2.1,
   (cache_get_ttl_boundary ⟨86400, true⟩ storeC3 "k" 7 some 7 0 10 rfl rfl rfl
      (by decide)).2.2.2⟩

/-- C8: a corrupt or unparseable cache record (bytes that do not decode as
a cache entry, or a payload that does not decode into the requested type)
is treated as a miss: the metadata fetch falls through to the live fetch
and returns exactly the live outcome, never the corruption error. -/
theorem cache_corruption_is_miss {π : Type} (m : CacheManager)
    (store : CacheStore π) (now : Int)
    (decode : π → Option UnpkgMetaResponse) (encode : UnpkgMetaResponse → π)
    (live : Except String UnpkgMetaResponse) (libraryName version : String)
    (hcor : store (GenerateKey ["unpkg", "meta", libraryName, version])
          = some .corrupt
        ∨ ∃ entry,
            store (GenerateKey ["unpkg", "meta", libraryName, version])
                = some (.good entry)
              ∧ decode entry.data = none) :
    (FetchUnpkgMeta m store now decode encode live libraryName version).1 = live
      ∧ (m.Get store now (GenerateKey ["unpkg", "meta", libraryName, version])
           decode).1.1 = false := by
  have hGet : (m.Get store now
      (GenerateKey ["unpkg", "meta", libraryName, version]) decode).1.1
      = false := by
    rcases hcor with hc | ⟨entry, hc, hd⟩
    · by_cases hen : m.enabled <;> simp [CacheManager.Get, hen, hc]
    · by_cases hen : m.enabled
      · by_cases hexp : entry.ttl < now - entry.timestamp <;>
          simp [CacheManager.Get, hen, hc, hd, hexp]
      · simp [CacheManager.Get, hen]
  refine ⟨?_, hGet⟩
  unfold FetchUnpkgMeta
  rcases hres : m.Get store now
      (GenerateKey ["unpkg", "meta", libraryName, version]) decode with
    ⟨⟨found, errv, vOpt⟩, store₁⟩
  have hfound : found = false := by
    have := hGet
    rw [hres] at this
    exact this
  subst hfound
  cases live with
  | error e => simp [hres]
  | ok r => simp [hres]

/-- Witness for C8: a corrupt record under the UNPKG metadata key. -/
def storeC8 : CacheStore Nat := fun k =>
  if k = "[unpkg meta jquery 3.7.1]" then some .corrupt else none

/-- Witness for C8 at a concrete corrupt store: the fetch returns the live
result. -/
theorem cache_corruption_is_miss_witness :
    (FetchUnpkgMeta ⟨86400, true⟩ storeC8 5 (fun _ => Option.none)
        (fun _ => 0) (.ok zeroUnpkgMeta) "jquery" "3.7.1").1
      = .ok zeroUnpkgMeta :=
  (cache_corruption_is_miss ⟨86400, true⟩ storeC8 5 (fun _ => Option.none)
      (fun _ => 0) (.ok zeroUnpkgMeta) "jquery" "3.7.1" (Or.inl rfl)).1

/-- Environment for the C5 counterexample: one UNPKG file. -/
def envC5 : CDNEnv :=
  { unpkgMeta := fun _ _ => .ok
      { pkg := "jquery", version := "3.7.1", pathPfx := "/",
        files := [{ path := "/x.js", size := 1, type := "file",
                    integrity := "" }] },
    cdnjsVersion := fun _ _ => .error "unused",
    jsdelivrPackage := fun _ _ => .error "unused" }

/-- Manifest for the C5 counterexample. -/
def cfgC5 : FrontendConfig :=
  { destination := "web/{library_name}", projectName := "p", cdn := "unpkg",
    libraries := [("jquery",
      { version := "3.7.1", cdn := "", files := [], outputPath := "" })] }

/-- C5 counterexample: with the manifest and the local filesystem both
unchanged (the planned file still absent), a second planner run returns the
same nonempty task list, not an empty one. -/
theorem planner_rerun_counterexample :
    buildDownloadTasks envC5 id (fun _ => false) false cfgC5
        = .ok [{ libraryName := "jquery", version := "3.7.1", cdn := "unpkg",
                 filePath := "x.js", destPath := "web/jquery/x.js",
                 url := "https://unpkg.com/jquery@3.7.1/x.js", size := 1 }]
      ∧ buildDownloadTasks envC5 id (fun _ => false) false cfgC5 ≠ .ok [] := by
  have h1 : buildDownloadTasks envC5 id (fun _ => false) false cfgC5
      = .ok [{ libraryName := "jquery", version := "3.7.1", cdn := "unpkg",
               filePath := "x.js", destPath := "web/jquery/x.js",
               url := "https://unpkg.com/jquery@3.7.1/x.js", size := 1 }] := by
    rfl
  refine ⟨h1, ?_⟩
  rw [h1]
  simp

theorem buildTasksForFiles_skip (fs fs' : String → Bool)
    (libName ver cdn destPath : String) (files : List CDNFile)
    (hmono : ∀ p, fs p = true → fs' p = true)
    (hcover : ∀ t ∈ buildTasksForFiles fs false libName ver cdn destPath files,
        fs' t.destPath = true) :
    buildTasksForFiles fs' false libName ver cdn destPath files = [] := by
  induction files with
  | nil => rfl
  | cons f rest ih =>
    by_cases hfs : fs (joinPath destPath f.path) = true
    · have h1' : fs' (joinPath destPath f.path) = true := hmono _ hfs
      simp only [buildTasksForFiles, hfs] at hcover
      simp only [buildTasksForFiles, h1']
      simp only [Bool.not_false, Bool.true_and, if_true, List.nil_append] at hcover ⊢
      exact ih hcover
    · have hfs0 : fs (joinPath destPath f.path) = false :=
        Bool.eq_false_iff.mpr hfs
      simp [buildTasksForFiles, hfs0] at hcover
      obtain ⟨hhead, htail⟩ := hcover
      simp [buildTasksForFiles, hhead]
      exact ih htail

theorem buildTasksForLib_rerun (env : CDNEnv) (abs : String → String)
    (fs fs' : String → Bool) (config : FrontendConfig) (libName : String)
    (lc : LibraryConfig) (ts : List DownloadTask)
    (h : buildTasksForLib env abs fs false config libName lc = .ok ts)
    (hmono : ∀ p, fs p = true → fs' p = true)
    (hcover : ∀ t ∈ ts, fs' t.destPath = true) :
    buildTasksForLib env abs fs' false config libName lc = .ok [] := by
  simp only [buildTasksForLib] at h ⊢
  cases hdest : GetLibraryDestination abs config libName lc with
  | error e => rw [hdest] at h; simp at h
  | ok destPath =>
    rw [hdest] at h
    dsimp only at h ⊢
    cases hfetch :
        fetchFileList env libName lc.version (effectiveCDN config lc) with
    | error e => rw [hfetch] at h; simp at h
    | ok files =>
      rw [hfetch] at h
      dsimp only at h ⊢
      have hts : buildTasksForFiles fs false libName lc.version
          (effectiveCDN config lc) destPath
          (if lc.files ≠ [] then filterFiles files lc.files else files) = ts := by
        injection h
      rw [buildTasksForFiles_skip fs fs' libName lc.version
        (effectiveCDN config lc) destPath
        (if lc.files ≠ [] then filterFiles files lc.files else files) hmono
        (by rw [hts]; exact hcover)]

theorem buildLoop_rerun (env : CDNEnv) (abs : String → String)
    (fs fs' : String → Bool) (config : FrontendConfig) :
    ∀ (libs : List (String × LibraryConfig)) (ts : List DownloadTask),
      buildLoop env abs fs false config libs = .ok ts →
      (∀ p, fs p = true → fs' p = true) →
      (∀ t ∈ ts, fs' t.destPath = true) →
      buildLoop env abs fs' false config libs = .ok [] := by
  intro libs
  induction libs with
  | nil => intro ts _ _ _; simp [buildLoop]
  | cons nl rest ih =>
    obtain ⟨n, lc⟩ := nl
    intro ts h hmono hcover
    simp only [buildLoop] at h ⊢
    cases hlib : buildTasksForLib env abs fs false config n lc with
    | error e => rw [hlib] at h; simp at h
    | ok lts =>
      rw [hlib] at h
      dsimp only at h
      cases hrest : buildLoop env abs fs false config rest with
      | error e => rw [hrest] at h; simp at h
      | ok more =>
        rw [hrest] at h
        dsimp only at h
        have h' : lts ++ more = ts := by injection h
        have hcov1 : ∀ t ∈ lts, fs' t.destPath = true := fun t ht =>
          hcover t (h' ▸ List.mem_append_left more ht)
        have hcov2 : ∀ t ∈ more, fs' t.destPath = true := fun t ht =>
          hcover t (h' ▸ List.mem_append_right lts ht)
        rw [buildTasksForLib_rerun env abs fs fs' config n lc lts hlib hmono
          hcov1, ih more hrest hmono hcov2]
        rfl

/-- C5 (amended): with an unchanged manifest, a second planner run yields
an empty task list once the local filesystem additionally contains every
file the first run planned (as after the executor materialized them);
with a truly unchanged filesystem the second run returns the first run's
task list again, the planner being a pure function. -/
theorem planner_rerun_after_materialize (env : CDNEnv) (abs : String → String)
    (fs : String → Bool) (config : FrontendConfig) (tasks : List DownloadTask)
    (h : buildDownloadTasks env abs fs false config = .ok tasks) :
    buildDownloadTasks env abs
        (fun p => fs p || tasks.any (fun t => t.destPath == p)) false config
      = .ok [] := by
  unfold buildDownloadTasks at h ⊢
  refine buildLoop_rerun env abs fs _ config config.libraries tasks h ?_ ?_
  · intro p hp; simp [hp]
  · intro t ht
    simp only [List.any_eq_true, Bool.or_eq_true]
    exact Or.inr ⟨t, ht, by simp⟩

/-- The single task planned in the C5 scenario. -/
def taskC5 : DownloadTask :=
  { libraryName := "jquery", version := "3.7.1", cdn := "unpkg",
    filePath := "x.js", destPath := "web/jquery/x.js",
    url := "https://unpkg.com/jquery@3.7.1/x.js", size := 1 }

/-- Witness for the amended C5: after the planned file exists, the rerun
plans nothing. -/
theorem planner_rerun_after_materialize_witness :
    buildDownloadTasks envC5 id
        (fun p => false || [taskC5].any (fun t => t.destPath == p)) false cfgC5
      = .ok [] :=
  planner_rerun_after_materialize envC5 id (fun _ => false) cfgC5 [taskC5]
    (by rfl)

theorem buildTasksForFiles_filePath_sublist (fs : String → Bool) (force : Bool)
    (n v c d : String) (files : List CDNFile) :
    ((buildTasksForFiles fs force n v c d files).map
        (fun t => t.filePath)).Sublist (files.map (fun f => f.path)) := by
  induction files with
  | nil => simp [buildTasksForFiles]
  | cons f rest ih =>
    simp only [buildTasksForFiles, List.map_cons]
    by_cases hskip : (!force && fs (joinPath d f.path)) = true
    · rw [if_pos hskip]
      simp only [List.nil_append]
      exact ih.cons _
    · rw [if_neg hskip]
      simp only [List.singleton_append, List.map_cons]
      exact ih.cons₂ _

theorem buildTasksForFiles_libraryName (fs : String → Bool) (force : Bool)
    (n v c d : String) (files : List CDNFile) :
    ∀ t ∈ buildTasksForFiles fs force n v c d files, t.libraryName = n := by
  induction files with
  | nil => intro t ht; simp [buildTasksForFiles] at ht
  | cons f rest ih =>
    intro t ht
    simp only [buildTasksForFiles, List.mem_append] at ht
    rcases ht with ht | ht
    · by_cases hskip : (!force && fs (joinPath d f.path)) = true
      · rw [if_pos hskip] at ht; simp at ht
      · rw [if_neg hskip] at ht
        simp only [List.mem_singleton] at ht
        subst ht; rfl
    · exact ih t ht

theorem buildTasksForFiles_notExists (fs : String → Bool)
    (n v c d : String) (files : List CDNFile) :
    ∀ t ∈ buildTasksForFiles fs false n v c d files, fs t.destPath = false := by
  induction files with
  | nil => intro t ht; simp [buildTasksForFiles] at ht
  | cons f rest ih =>
    intro t ht
    simp only [buildTasksForFiles, List.mem_append] at ht
    rcases ht with ht | ht
    · by_cases hfs : fs (joinPath d f.path) = true
      · simp [hfs] at ht
      · have hfs0 : fs (joinPath d f.path) = false := Bool.eq_false_iff.mpr hfs
        simp [hfs0] at ht
        subst ht
        exact hfs0
    · exact ih t ht

theorem buildTasksForFiles_force_indep (fs fs' : String → Bool)
    (n v c d : String) (files : List CDNFile) :
    buildTasksForFiles fs true n v c d files
      = buildTasksForFiles fs' true n v c d files := by
  induction files with
  | nil => rfl
  | cons f rest ih => simp [buildTasksForFiles, ih]

theorem buildTasksForLib_ok_shape (env : CDNEnv) (abs : String → String)
    (fs : String → Bool) (force : Bool) (config : FrontendConfig)
    (n : String) (lc : LibraryConfig) (ts : List DownloadTask)
    (h : buildTasksForLib env abs fs force config n lc = .ok ts) :
    ∃ destPath files,
      GetLibraryDestination abs config n lc = .ok destPath
        ∧ fetchFileList env n lc.version (effectiveCDN config lc) = .ok files
        ∧ ts = buildTasksForFiles fs force n lc.version (effectiveCDN config lc)
            destPath
            (if lc.files ≠ [] then filterFiles files lc.files else files) := by
  simp only [buildTasksForLib] at h
  cases hdest : GetLibraryDestination abs config n lc with
  | error e => rw [hdest] at h; simp at h
  | ok destPath =>
    rw [hdest] at h
    dsimp only at h
    cases hfetch : fetchFileList env n lc.version (effectiveCDN config lc) with
    | error e => rw [hfetch] at h; simp at h
    | ok files =>
      rw [hfetch] at h
      dsimp only at h
      refine ⟨destPath, files, rfl, rfl, ?_⟩
      have h' : buildTasksForFiles fs force n lc.version (effectiveCDN config lc)
          destPath (if lc.files ≠ [] then filterFiles files lc.files else files)
          = ts := by injection h
      exact h'.symm

theorem buildLoop_ok_shape (env : CDNEnv) (abs : String → String)
    (fs : String → Bool) (force : Bool) (config : FrontendConfig) :
    ∀ (libs : List (String × LibraryConfig)) (ts : List DownloadTask),
      buildLoop env abs fs force config libs = .ok ts →
      (libs = [] ∧ ts = [])
        ∨ ∃ n lc rest lts more, libs = (n, lc) :: rest
            ∧ buildTasksForLib env abs fs force config n lc = .ok lts
            ∧ buildLoop env abs fs force config rest = .ok more
            ∧ ts = lts ++ more := by
  intro libs ts h
  cases libs with
  | nil =>
    left
    refine ⟨rfl, ?_⟩
    simp [buildLoop] at h
    exact h
  | cons nl rest =>
    obtain ⟨n, lc⟩ := nl
    right
    simp only [buildLoop] at h
    cases hlib : buildTasksForLib env abs fs force config n lc with
    | error e => rw [hlib] at h; simp at h
    | ok lts =>
      rw [hlib] at h
      dsimp only at h
      cases hrest : buildLoop env abs fs force config rest with
      | error e => rw [hrest] at h; simp at h
      | ok more =>
        rw [hrest] at h
        dsimp only at h
        have h' : lts ++ more = ts := by injection h
        exact ⟨n, lc, rest, lts, more, rfl, hlib, hrest, h'.symm⟩

theorem buildLoop_cons_ok (env : CDNEnv) (abs : String → String)
    (fs : String → Bool) (force : Bool) (config : FrontendConfig)
    (n : String) (lc : LibraryConfig) (rest : List (String × LibraryConfig))
    (ts : List DownloadTask)
    (h : buildLoop env abs fs force config ((n, lc) :: rest) = .ok ts) :
    ∃ lts more, buildTasksForLib env abs fs force config n lc = .ok lts
      ∧ buildLoop env abs fs force config rest = .ok more
      ∧ ts = lts ++ more := by
  simp only [buildLoop] at h
  cases hlib : buildTasksForLib env abs fs force config n lc with
  | error e => rw [hlib] at h; simp at h
  | ok lts =>
    rw [hlib] at h
    dsimp only at h
    cases hrest : buildLoop env abs fs force config rest with
    | error e => rw [hrest] at h; simp at h
    | ok more =>
      rw [hrest] at h
      dsimp only at h
      have h' : lts ++ more = ts := by injection h
      exact ⟨lts, more, rfl, rfl, h'.symm⟩

theorem buildLoop_libNames (env : CDNEnv) (abs : String → String)
    (fs : String → Bool) (force : Bool) (config : FrontendConfig) :
    ∀ (libs : List (String × LibraryConfig)) (ts : List DownloadTask),
      buildLoop env abs fs force config libs = .ok ts →
      ∀ t ∈ ts, t.libraryName ∈ libs.map Prod.fst := by
  intro libs
  induction libs with
  | nil =>
    intro ts h t ht
    simp [buildLoop] at h
    subst h
    simp at ht
  | cons nl rest ih =>
    obtain ⟨n, lc⟩ := nl
    intro ts h t ht
    obtain ⟨lts, more, hlib, hrest, hts⟩ :=
      buildLoop_cons_ok env abs fs force config n lc rest ts h
    subst hts
    rcases List.mem_append.mp ht with hm | hm
    · obtain ⟨destPath, files, _, _, hlts⟩ :=
        buildTasksForLib_ok_shape env abs fs force config n lc lts hlib
      subst hlts
      have := buildTasksForFiles_libraryName fs force n lc.version
        (effectiveCDN config lc) destPath _ t hm
      simp [this]
    · simp only [List.map_cons]
      exact List.mem_cons_of_mem _ (ih more hrest t hm)

theorem buildLoop_notExists (env : CDNEnv) (abs : String → String)
    (fs : String → Bool) (config : FrontendConfig) :
    ∀ (libs : List (String × LibraryConfig)) (ts : List DownloadTask),
      buildLoop env abs fs false config libs = .ok ts →
      ∀ t ∈ ts, fs t.destPath = false := by
  intro libs
  induction libs with
  | nil =>
    intro ts h t ht
    simp [buildLoop] at h
    subst h
    simp at ht
  | cons nl rest ih =>
    obtain ⟨n, lc⟩ := nl
    intro ts h t ht
    obtain ⟨lts, more, hlib, hrest, hts⟩ :=
      buildLoop_cons_ok env abs fs false config n lc rest ts h
    subst hts
    rcases List.mem_append.mp ht with hm | hm
    · obtain ⟨destPath, files, _, _, hlts⟩ :=
        buildTasksForLib_ok_shape env abs fs false config n lc lts hlib
      subst hlts
      exact buildTasksForFiles_notExists fs n lc.version
        (effectiveCDN config lc) destPath _ t hm
    · exact ih more hrest t hm

theorem buildLoop_force_indep (env : CDNEnv) (abs : String → String)
    (fs fs' : String → Bool) (config : FrontendConfig) :
    ∀ libs, buildLoop env abs fs true config libs
      = buildLoop env abs fs' true config libs := by
  intro libs
  induction libs with
  | nil => rfl
  | cons nl rest ih =>
    obtain ⟨n, lc⟩ := nl
    simp only [buildLoop]
    have hlib : buildTasksForLib env abs fs true config n lc
        = buildTasksForLib env abs fs' true config n lc := by
      simp only [buildTasksForLib]
      cases GetLibraryDestination abs config n lc with
      | error e => rfl
      | ok destPath =>
        dsimp only
        cases fetchFileList env n lc.version (effectiveCDN config lc) with
        | error e => rfl
        | ok files =>
          dsimp only
          rw [buildTasksForFiles_force_indep fs fs']
    rw [hlib, ih]

theorem buildLoop_pairwise (env : CDNEnv) (abs : String → String)
    (fs : String → Bool) (force : Bool) (config : FrontendConfig) :
    ∀ (libs : List (String × LibraryConfig)) (ts : List DownloadTask),
      (libs.map Prod.fst).Nodup →
      (∀ n lc, (n, lc) ∈ libs → ∀ files,
          fetchFileList env n lc.version (effectiveCDN config lc) = .ok files →
          ((if lc.files ≠ [] then filterFiles files lc.files else files).map
              (fun f => f.path)).Nodup) →
      buildLoop env abs fs force config libs = .ok ts →
      ts.Pairwise (fun a b =>
        ¬(a.libraryName = b.libraryName ∧ a.filePath = b.filePath)) := by
  intro libs
  induction libs with
  | nil =>
    intro ts _ _ h
    simp [buildLoop] at h
    subst h
    exact List.Pairwise.nil
  | cons nl rest ih =>
    obtain ⟨n, lc⟩ := nl
    intro ts hnames hfiles h
    obtain ⟨lts, more, hlib, hrest, hts⟩ :=
      buildLoop_cons_ok env abs fs force config n lc rest ts h
    subst hts
    obtain ⟨destPath, files, hdest, hfetch, hlts⟩ :=
      buildTasksForLib_ok_shape env abs fs force config n lc lts hlib
    have hnodupFiles :
        ((if lc.files ≠ [] then filterFiles files lc.files else files).map
            (fun f => f.path)).Nodup :=
      hfiles n lc (List.mem_cons_self _ _) files hfetch
    have hnodupPaths : (lts.map (fun t => t.filePath)).Nodup := by
      rw [hlts]
      exact (buildTasksForFiles_filePath_sublist fs force n lc.version
        (effectiveCDN config lc) destPath _).nodup hnodupFiles
    have hpwLts : lts.Pairwise (fun a b => a.filePath ≠ b.filePath) :=
      List.pairwise_map.mp hnodupPaths
    rw [List.pairwise_append]
    have hnames' : (n :: rest.map Prod.fst).Nodup := hnames
    have hnamePair := List.nodup_cons.mp hnames'
    refine ⟨hpwLts.imp (fun hne hcon => hne hcon.2),
      ih more hnamePair.2
        (fun n' lc' hm => hfiles n' lc' (List.mem_cons_of_mem _ hm)) hrest,
      ?_⟩
    intro a ha b hb hcon
    have han : a.libraryName = n := by
      rw [hlts] at ha
      exact buildTasksForFiles_libraryName fs force n lc.version
        (effectiveCDN config lc) destPath _ a ha
    have hbn : b.libraryName ∈ rest.map Prod.fst :=
      buildLoop_libNames env abs fs force config rest more hrest b hb
    refine hnamePair.1 ?_
    rw [← han, hcon.1]
    exact hbn

/-- Environment for the C6 counterexample: the provider response lists the
same path twice. -/
def envC6 : CDNEnv :=
  { unpkgMeta := fun _ _ => .ok
      { pkg := "a", version := "1.0.0", pathPfx := "/",
        files := [{ path := "/x.js", size := 1, type := "file",
                    integrity := "" },
                  { path := "/x.js", size := 1, type := "file",
                    integrity := "" }] },
    cdnjsVersion := fun _ _ => .error "unused",
    jsdelivrPackage := fun _ _ => .error "unused" }

/-- Manifest for the C6 counterexample. -/
def cfgC6 : FrontendConfig :=
  { destination := "web/{library_name}", projectName := "p", cdn := "unpkg",
    libraries := [("a",
      { version := "1.0.0", cdn := "", files := [], outputPath := "" })] }

/-- The duplicated task of the C6 counterexample. -/
def taskC6 : DownloadTask :=
  { libraryName := "a", version := "1.0.0", cdn := "unpkg",
    filePath := "x.js", destPath := "web/a/x.js",
    url := "https://unpkg.com/a@1.0.0/x.js", size := 1 }

/-- C6 counterexample: a provider response carrying the same path twice
yields a planned batch with two tasks for one (library, remotePath) pair -
the planner never deduplicates. -/
theorem planner_duplicate_pair_counterexample :
    buildDownloadTasks envC6 id (fun _ => false) false cfgC6
        = .ok [taskC6, taskC6]
      ∧ ¬ ([taskC6, taskC6].Pairwise (fun a b =>
            ¬(a.libraryName = b.libraryName ∧ a.filePath = b.filePath))) := by
  refine ⟨by rfl, ?_⟩
  intro h
  exact (List.pairwise_cons.mp h).1 taskC6 (by simp) ⟨rfl, rfl⟩

/-- C6 (amended): provided every provider file list (after filtering) has
pairwise-distinct paths, a planned batch holds at most one task per
(library, remotePath) pair; unconditionally, without the force flag no
planned task's local path exists on disk, and with the force flag the
planner ignores local file existence entirely (existing files are
included). -/
theorem planner_batch_invariants (env : CDNEnv) (abs : String → String)
    (fs : String → Bool) (force : Bool) (config : FrontendConfig)
    (Hnames : (config.libraries.map Prod.fst).Nodup)
    (Hfiles : ∀ n lc, (n, lc) ∈ config.libraries → ∀ files,
        fetchFileList env n lc.version (effectiveCDN config lc) = .ok files →
        ((if lc.files ≠ [] then filterFiles files lc.files else files).map
            (fun f => f.path)).Nodup) :
    (∀ ts, buildDownloadTasks env abs fs force config = .ok ts →
        ts.Pairwise (fun a b =>
          ¬(a.libraryName = b.libraryName ∧ a.filePath = b.filePath)))
      ∧ (∀ ts, buildDownloadTasks env abs fs false config = .ok ts →
          ∀ t ∈ ts, fs t.destPath = false)
      ∧ (∀ fs', buildDownloadTasks env abs fs true config
            = buildDownloadTasks env abs fs' true config) := by
  refine ⟨?_, ?_, ?_⟩
  · intro ts h
    exact buildLoop_pairwise env abs fs force config config.libraries ts
      Hnames Hfiles h
  · intro ts h t ht
    exact buildLoop_notExists env abs fs config config.libraries ts h t ht
  · intro fs'
    exact buildLoop_force_indep env abs fs fs' config config.libraries

/-- The single normalized file of the C5 scenario. -/
def fileC5 : CDNFile :=
  { path := "x.js", url := "https://unpkg.com/jquery@3.7.1/x.js", size := 1 }

/-- Witness for the amended C6 at the concrete C5 scenario. -/
theorem planner_batch_invariants_witness :
    [taskC5].Pairwise (fun a b =>
      ¬(a.libraryName = b.libraryName ∧ a.filePath = b.filePath)) :=
  (planner_batch_invariants envC5 id (fun _ => false) false cfgC5
    (by decide)
    (by
      intro n lc hm files hf
      have hm' := List.mem_singleton.mp hm
      have hn : n = "jquery" := congrArg Prod.fst hm'
      have hlc : lc =
          { version := "3.7.1", cdn := "", files := [], outputPath := "" } :=
        congrArg Prod.snd hm'
      subst hn
      subst hlc
      have hfix : fetchFileList envC5 "jquery" "3.7.1"
          (effectiveCDN cfgC5
            { version := "3.7.1", cdn := "", files := [], outputPath := "" })
          = .ok [fileC5] := by rfl
      rw [hfix] at hf
      have hfiles' : [fileC5] = files := by injection hf
      rw [← hfiles']
      decide)).1
    [taskC5] (by rfl)

theorem parseVersion_original (s : String) (v : GoVersion)
    (h : parseVersion s = some v) : v.original = s := by
  unfold parseVersion at h
  cases ha : parseVersionAux s with
  | none => rw [ha] at h; simp at h
  | some triple =>
    rw [ha] at h
    obtain ⟨segs, pre, meta⟩ := triple
    injection h with h'
    rw [← h']

theorem parseVersion_roundtrip (s : String) (v : GoVersion)
    (h : parseVersion s = some v) : parseVersion v.original = some v := by
  rw [parseVersion_original s v h]
  exact h

theorem filterMap_parse_originals (l : List GoVersion)
    (h : ∀ v ∈ l, parseVersion v.original = some v) :
    (l.map (fun v => v.original)).filterMap parseVersion = l := by
  induction l with
  | nil => rfl
  | cons v rest ih =>
    simp only [List.map_cons, List.filterMap_cons, h v (by simp)]
    rw [ih (fun w hw => h w (by simp [hw]))]

theorem insertDesc_perm (x : GoVersion) (l : List GoVersion) :
    (insertDesc x l).Perm (x :: l) := by
  induction l with
  | nil => simp [insertDesc]
  | cons y ys ih =>
    simp only [insertDesc]
    by_cases hxy : versionLe x y = true
    · rw [if_pos hxy]
    · rw [if_neg hxy]
      exact (ih.cons y).trans (List.Perm.swap x y ys)

theorem sortDesc_perm (l : List GoVersion) : (sortDescVersions l).Perm l := by
  induction l with
  | nil => simp [sortDescVersions]
  | cons x xs ih =>
    simp only [sortDescVersions]
    exact (insertDesc_perm x (sortDescVersions xs)).trans (ih.cons x)

theorem insertDesc_sorted (x : GoVersion) (l : List GoVersion)
    (hsort : l.Pairwise (fun a b => versionLe a b = true))
    (htot : ∀ y ∈ l, versionLe x y = true ∨ versionLe y x = true)
    (htrans : ∀ y ∈ l, ∀ z ∈ l,
        versionLe x y = true → versionLe y z = true → versionLe x z = true) :
    (insertDesc x l).Pairwise (fun a b => versionLe a b = true) := by
  induction l with
  | nil => simp [insertDesc]
  | cons y ys ih =>
    simp only [insertDesc]
    by_cases hxy : versionLe x y = true
    · rw [if_pos hxy]
      refine List.Pairwise.cons ?_ hsort
      intro z hz
      rcases List.mem_cons.mp hz with rfl | hz'
      · exact hxy
      · have hyz := (List.pairwise_cons.mp hsort).1 z hz'
        exact htrans y (by simp) z (by simp [hz']) hxy hyz
    · rw [if_neg hxy]
      have hyx : versionLe y x = true := by
        rcases htot y (by simp) with h | h
        · exact absurd h hxy
        · exact h
      have hy_le := (List.pairwise_cons.mp hsort).1
      have hsort_ys := (List.pairwise_cons.mp hsort).2
      refine List.Pairwise.cons ?_
        (ih hsort_ys (fun z hz => htot z (by simp [hz]))
          (fun a ha b hb => htrans a (by simp [ha]) b (by simp [hb])))
      intro z hz
      rcases List.mem_cons.mp ((insertDesc_perm x ys).mem_iff.mp hz) with
        rfl | hzys
      · exact hyx
      · exact hy_le z hzys

theorem sortDesc_sorted (l : List GoVersion)
    (htot : ∀ a ∈ l, ∀ b ∈ l, versionLe a b = true ∨ versionLe b a = true)
    (htrans : ∀ a ∈ l, ∀ b ∈ l, ∀ c ∈ l,
        versionLe a b = true → versionLe b c = true → versionLe a c = true) :
    (sortDescVersions l).Pairwise (fun a b => versionLe a b = true) := by
  induction l with
  | nil => simp [sortDescVersions]
  | cons x xs ih =>
    simp only [sortDescVersions]
    have hmem : ∀ y ∈ sortDescVersions xs, y ∈ xs := fun y hy =>
      (sortDesc_perm xs).subset hy
    exact insertDesc_sorted x (sortDescVersions xs)
      (ih (fun a ha b hb => htot a (by simp [ha]) b (by simp [hb]))
        (fun a ha b hb c hc =>
          htrans a (by simp [ha]) b (by simp [hb]) c (by simp [hc])))
      (fun y hy => htot x (by simp) y (by simp [hmem y hy]))
      (fun y hy z hz hxy hyz =>
        htrans x (by simp) y (by simp [hmem y hy]) z (by simp [hmem z hz])
          hxy hyz)

theorem sortDesc_of_sorted (l : List GoVersion)
    (h : l.Pairwise (fun a b => versionLe a b = true)) :
    sortDescVersions l = l := by
  induction l with
  | nil => rfl
  | cons x xs ih =>
    have hx := (List.pairwise_cons.mp h).1
    have hxs := (List.pairwise_cons.mp h).2
    simp only [sortDescVersions, ih hxs]
    cases xs with
    | nil => rfl
    | cons y ys => simp [insertDesc, hx y (by simp)]

/-- C4 (amended): `SortVersions` is deterministic, silently drops
unparseable strings and returns exactly the parseable entries; when the
version comparison is total and transitive on the parsed entries (as for
ordinary well-formed semver strings) the output is sorted descending and
sorting is idempotent; descent is strict when additionally the parsed
entries are pairwise distinct and no two compare as equal; the concrete
example sorts as claimed. -/
theorem sortVersions_spec (xs : List String)
    (Htot : ∀ a ∈ xs.filterMap parseVersion, ∀ b ∈ xs.filterMap parseVersion,
        versionLe a b = true ∨ versionLe b a = true)
    (Htrans : ∀ a ∈ xs.filterMap parseVersion,
        ∀ b ∈ xs.filterMap parseVersion, ∀ c ∈ xs.filterMap parseVersion,
        versionLe a b = true → versionLe b c = true →
        versionLe a c = true) :
    (SortVersions xs).Perm
        ((xs.filterMap parseVersion).map (fun v => v.original))
      ∧ (∀ s, parseVersion s = none → s ∉ SortVersions xs)
      ∧ (sortDescVersions (xs.filterMap parseVersion)).Pairwise
          (fun a b => versionLe a b = true)
      ∧ SortVersions (SortVersions xs) = SortVersions xs
      ∧ ((xs.filterMap parseVersion).Nodup →
          (∀ a ∈ xs.filterMap parseVersion, ∀ b ∈ xs.filterMap parseVersion,
              goCompare a b = .eq → a = b) →
          (sortDescVersions (xs.filterMap parseVersion)).Pairwise
            (fun a b => goCompare a b = .gt))
      ∧ SortVersions ["1.0.0", "2.0.0", "1.0.0-beta", "bogus"]
          = ["2.0.0", "1.0.0", "1.0.0-beta"] := by
  have hperm : (sortDescVersions (xs.filterMap parseVersion)).Perm
      (xs.filterMap parseVersion) := sortDesc_perm _
  have hroundtrip : ∀ v ∈ xs.filterMap parseVersion,
      parseVersion v.original = some v := by
    intro v hv
    obtain ⟨s, _, hs⟩ := List.mem_filterMap.mp hv
    exact parseVersion_roundtrip s v hs
  have hsorted := sortDesc_sorted (xs.filterMap parseVersion) Htot Htrans
  refine ⟨?_, ?_, hsorted, ?_, ?_, by decide⟩
  · exact hperm.map _
  · intro s hnone hmem
    simp only [SortVersions, List.mem_map] at hmem
    obtain ⟨v, hv, hvs⟩ := hmem
    have hv' : v ∈ xs.filterMap parseVersion := hperm.subset hv
    have := hroundtrip v hv'
    rw [hvs] at this
    rw [hnone] at this
    simp at this
  · show SortVersions (SortVersions xs) = SortVersions xs
    have h1 : (SortVersions xs).filterMap parseVersion
        = sortDescVersions (xs.filterMap parseVersion) := by
      simp only [SortVersions]
      exact filterMap_parse_originals _
        (fun v hv => hroundtrip v (hperm.subset hv))
    simp only [SortVersions] at h1 ⊢
    rw [h1, sortDesc_of_sorted _ hsorted]
  · intro hnd heq
    have hndSorted : (sortDescVersions (xs.filterMap parseVersion)).Nodup :=
      hperm.symm.nodup hnd
    have hboth := hsorted.and hndSorted
    refine hboth.imp_of_mem ?_
    intro a b ha hb hab
    have ha' : a ∈ xs.filterMap parseVersion := hperm.subset ha
    have hb' : b ∈ xs.filterMap parseVersion := hperm.subset hb
    obtain ⟨hle, hne⟩ := hab
    cases hcmp : goCompare a b with
    | lt =>
      simp only [versionLe, hcmp] at hle
      exact absurd hle (by decide)
    | eq => exact absurd (heq a ha' b hb' hcmp) hne
    | gt => rfl

/-- C4 counterexample: both copies of "1.0.0" parse, yet the output
["1.0.0", "1.0.0"] is not in strict descending order - its two entries
compare as equal. -/
theorem sortVersions_counterexample :
    SortVersions ["1.0.0", "1.0.0"] = ["1.0.0", "1.0.0"]
      ∧ (parseVersion "1.0.0").isSome = true
      ∧ ¬ ((sortDescVersions
            (["1.0.0", "1.0.0"].filterMap parseVersion)).Pairwise
              (fun a b => goCompare a b = .gt)) := by
  refine ⟨by decide, by decide, ?_⟩
  intro h
  have e : sortDescVersions (["1.0.0", "1.0.0"].filterMap parseVersion)
      = [⟨[1, 0, 0], "", "", "1.0.0"⟩, ⟨[1, 0, 0], "", "", "1.0.0"⟩] := by
    decide
  rw [e] at h
  exact absurd ((List.pairwise_cons.mp h).1 ⟨[1, 0, 0], "", "", "1.0.0"⟩
    (by simp)) (by decide)

/-- Witness for the amended C4 at the concrete list of the claim. -/
theorem sortVersions_spec_witness :
    SortVersions ["1.0.0", "2.0.0", "1.0.0-beta", "bogus"]
      = ["2.0.0", "1.0.0", "1.0.0-beta"] :=
  (sortVersions_spec ["1.0.0", "2.0.0", "1.0.0-beta", "bogus"]
    (by decide) (by decide)).2.2.2.2.2

/-- The downloads the executor will hand to `downloadFile`, per the
download-outcome environment: every task up to and including the first
failing one. -/
def expectedAttempts (envD : DownloadTask → Option String) :
    List DownloadTask → List DownloadTask
  | [] => []
  | t :: rest => t :: (if (envD t).isSome then [] else expectedAttempts envD rest)

/-- The error the executor surfaces: the first failing task's wrapped
transport or status error, if any. -/
def expectedErr (envD : DownloadTask → Option String) :
    List DownloadTask → Option String
  | [] => none
  | t :: rest =>
    match envD t with
    | some e => some ("failed to download " ++ t.filePath ++ ": " ++ e)
    | none => expectedErr envD rest

/-- How many downloads complete before the first failure. -/
def successCount (envD : DownloadTask → Option String) :
    List DownloadTask → Nat
  | [] => 0
  | t :: rest => if (envD t).isSome then 0 else successCount envD rest + 1

theorem drive_startDownload_trace (envD : DownloadTask → Option String)
    (clock : ℚ) :
    ∀ (l : List DownloadTask) (m : SyncModel) (fuel : Nat),
      m.err = none →
      m.tasks.drop m.currentIndex = l → 2 * l.length + 2 ≤ fuel →
      ∃ mf, drive envD clock fuel m (.startDownload m.tasks m.currentIndex)
          = (expectedAttempts envD l, mf)
        ∧ mf.err = expectedErr envD l
        ∧ mf.completed = m.completed + successCount envD l
        ∧ mf.tasks = m.tasks := by
  intro l
  induction l with
  | nil =>
    intro m fuel herr hdrop hfuel
    have hnone : m.tasks[m.currentIndex]? = none :=
      List.getElem?_eq_none_iff.mpr (List.drop_eq_nil_iff.mp hdrop)
    obtain ⟨f1, rfl⟩ : ∃ f1, fuel = f1 + 1 + 1 := ⟨fuel - 2, by omega⟩
    refine ⟨m, ?_, herr, by simp [successCount], rfl⟩
    simp only [drive, hnone, update, expectedAttempts]
  | cons t rest ih =>
    intro m fuel herr hdrop hfuel
    have hsome : m.tasks[m.currentIndex]? = some t := by
      rw [← List.head?_drop, hdrop]
      rfl
    have hrest : m.tasks.drop (m.currentIndex + 1) = rest := by
      rw [← List.tail_drop, hdrop]
      rfl
    obtain ⟨f1, rfl⟩ : ∃ f1, fuel = f1 + 1 + 1 :=
      ⟨fuel - 2, by simp at hfuel ⊢; omega⟩
    cases henv : envD t with
    | some e =>
      obtain ⟨f2, rfl⟩ : ∃ f2, f1 = f2 + 1 := by
        refine ⟨f1 - 1, ?_⟩
        simp [List.length_cons] at hfuel
        omega
      refine ⟨{ m with currentTask := some t, progress := 0,
                       downloading := true, startTime := clock,
                       err := some ("failed to download " ++ t.filePath
                         ++ ": " ++ e) },
        ?_, by simp [expectedErr, henv], by simp [successCount, henv], rfl⟩
      simp only [drive, hsome, update, henv, expectedAttempts]
      simp
    | none =>
      by_cases hlen : m.tasks.length ≤ m.currentIndex + 1
      · have hrestnil : rest = [] := by
          rw [← hrest]
          exact List.drop_eq_nil_iff.mpr hlen
        subst hrestnil
        obtain ⟨f2, rfl⟩ : ∃ f2, f1 = f2 + 1 + 1 := by
          refine ⟨f1 - 2, ?_⟩
          simp [List.length_cons] at hfuel
          omega
        refine ⟨{ m with currentTask := some t, startTime := clock,
                         progress := 1, downloading := false,
                         completed := m.completed + 1,
                         currentIndex := m.currentIndex + 1 },
          ?_, by simp [expectedErr, henv, herr],
          by simp [successCount, henv], rfl⟩
        simp only [drive, hsome, update, henv, expectedAttempts]
        simp [drive, update, hlen]
      · have hbound : 2 * rest.length + 2 ≤ f1 := by
          simp [List.length_cons] at hfuel
          omega
        obtain ⟨mf, hdrive, herr', hcomp, htasks'⟩ :=
          ih { m with currentTask := some t, startTime := clock,
                      progress := 1, downloading := false,
                      completed := m.completed + 1,
                      currentIndex := m.currentIndex + 1 }
            f1 herr hrest hbound
        dsimp only at hdrive
        refine ⟨mf, ?_, by simp [expectedErr, henv, herr'],
          by simp only [hcomp]; simp [successCount, henv]; omega, htasks'⟩
        simp only [drive, hsome, update, henv]
        rw [if_neg hlen]
        rw [hdrive]
        simp [expectedAttempts, henv]

theorem expectedAttempts_eq_take (envD : DownloadTask → Option String) :
    ∀ l : List DownloadTask,
      expectedAttempts envD l
        = l.take (l.findIdx (fun t => (envD t).isSome) + 1) := by
  intro l
  induction l with
  | nil => rfl
  | cons t rest ih =>
    simp only [expectedAttempts, List.findIdx_cons]
    cases hp : (envD t).isSome with
    | true => simp [hp]
    | false => simp [hp, ih, List.take_succ_cons]

theorem expectedErr_eq_find (envD : DownloadTask → Option String) :
    ∀ l : List DownloadTask,
      expectedErr envD l
        = (l.find? (fun t => (envD t).isSome)).bind
            (fun t => (envD t).map
              (fun e => "failed to download " ++ t.filePath ++ ": " ++ e)) := by
  intro l
  induction l with
  | nil => rfl
  | cons t rest ih =>
    simp only [expectedErr, List.find?_cons]
    cases henv : envD t with
    | some e => simp [henv]
    | none => simp [henv, ih]

theorem expected_no_failure (envD : DownloadTask → Option String) :
    ∀ l : List DownloadTask,
      l.find? (fun t => (envD t).isSome) = none →
      expectedAttempts envD l = l ∧ expectedErr envD l = none
        ∧ successCount envD l = l.length := by
  intro l
  induction l with
  | nil => intro _; exact ⟨rfl, rfl, rfl⟩
  | cons t rest ih =>
    intro h
    rw [List.find?_cons] at h
    cases hp : (envD t).isSome with
    | true => rw [hp] at h; simp at h
    | false =>
      rw [hp] at h
      obtain ⟨h1, h2, h3⟩ := ih h
      cases henv : envD t with
      | some e => rw [henv] at hp; simp at hp
      | none =>
        refine ⟨?_, ?_, ?_⟩
        · simp [expectedAttempts, henv, h1]
        · simp [expectedErr, henv, h2]
        · simp [successCount, henv, h3]

/-- C7: the Download Executor processes the planned tasks strictly in list
order, one at a time; it hands to the downloader exactly the prefix of the
batch up to and including the first failing task (no later task starts, no
retry of the failed task), the surfaced error is the first failing task's
wrapped transport or status error, with no failure every task is processed
in order, and timer ticks only repaint the simulated progress, leaving the
executor control state unchanged. -/
theorem executor_sequential_abort_on_first_failure
    (envD : DownloadTask → Option String) (clock : ℚ)
    (tasks : List DownloadTask) :
    (runSyncExecutor envD clock tasks).1 = expectedAttempts envD tasks
      ∧ expectedAttempts envD tasks
          = tasks.take (tasks.findIdx (fun t => (envD t).isSome) + 1)
      ∧ (runSyncExecutor envD clock tasks).2.err = expectedErr envD tasks
      ∧ expectedErr envD tasks
          = (tasks.find? (fun t => (envD t).isSome)).bind
              (fun t => (envD t).map
                (fun e => "failed to download " ++ t.filePath ++ ": " ++ e))
      ∧ (tasks.find? (fun t => (envD t).isSome) = none →
          (runSyncExecutor envD clock tasks).1 = tasks
            ∧ (runSyncExecutor envD clock tasks).2.completed = tasks.length
            ∧ (runSyncExecutor envD clock tasks).2.err = none)
      ∧ (∀ (m : SyncModel) (tq : ℚ),
          (update clock m (.tick tq)).1.tasks = m.tasks
            ∧ (update clock m (.tick tq)).1.currentIndex = m.currentIndex
            ∧ (update clock m (.tick tq)).1.err = m.err
            ∧ (update clock m (.tick tq)).1.completed = m.completed
            ∧ (update clock m (.tick tq)).1.downloading = m.downloading) := by
  have hmain : (runSyncExecutor envD clock tasks).1 = expectedAttempts envD tasks
      ∧ (runSyncExecutor envD clock tasks).2.err = expectedErr envD tasks
      ∧ (runSyncExecutor envD clock tasks).2.completed
          = successCount envD tasks := by
    cases tasks with
    | nil => exact ⟨rfl, rfl, rfl⟩
    | cons t rest =>
      obtain ⟨mf, hdrive, herr, hcomp, _⟩ :=
        drive_startDownload_trace envD clock (t :: rest)
          { tasks := t :: rest, currentIndex := 0, currentTask := none,
            progress := 0, completed := 0, err := none, downloading := false,
            startTime := 0 }
          (2 * (t :: rest).length + 4) rfl (by simp) (by omega)
      dsimp only at hdrive
      have hrun : runSyncExecutor envD clock (t :: rest)
          = (expectedAttempts envD (t :: rest), mf) := by
        simp only [runSyncExecutor, newSyncModel, SyncModel.init]
        rw [if_pos (by simp)]
        exact hdrive
      exact ⟨by rw [hrun], by rw [hrun]; exact herr,
        by rw [hrun]; simpa using hcomp⟩
  refine ⟨hmain.1, expectedAttempts_eq_take envD tasks, hmain.2.1,
    expectedErr_eq_find envD tasks, ?_, ?_⟩
  · intro hnone
    obtain ⟨h1, h2, h3⟩ := expected_no_failure envD tasks hnone
    exact ⟨by rw [hmain.1, h1], by rw [hmain.2.2, h3], by rw [hmain.2.1, h2]⟩
  · intro m tq
    by_cases hd : m.downloading ∧ m.currentTask.isSome
    · simp [update, hd]
    · simp [update, hd]
